import Mathlib

/-!
FastFingers: the typing-test state machine and its metrics.

A shallow embedding of `src/main.go`.

* A Go `string` is its byte sequence (`List Nat`, one entry per byte); `len` is
  the number of bytes and `range` decodes UTF-8 as the Go language does.
* The package-level variables are the fields of `State`.
* Instants and durations are integers counting nanoseconds, as `time.Duration`
  does; every call of `time.Now` / `time.Since` takes the clock reading as an
  argument.
* The `float64` metrics are computed over `ℚ`; the comparisons of
  `elapsedTime.Seconds()` with `float64(*timeLimit)` are taken exactly.
* `unicode.IsPrint` is a table of the Go standard library; the handler takes it
  as the argument `isPrint`.
* An index expression `states[i]` evaluates in `Option`; `none` is the run-time
  fault "index out of range".
-/

namespace FastFingers

/-! ## Data model -/

/-- The struct `charState`: the state of each character in the test. -/
structure charState where
  char : Nat := 0
  correct : Bool := false
  typed : Bool := false
  isCursor : Bool := false
deriving DecidableEq, Repr

/-- The package-level variables of `main.go` (`paragraphIdx` only selects
`testText` and is not kept). -/
structure State where
  testText : List Nat
  startTime : Int
  testStarted : Bool
  testCompleted : Bool
  states : List charState
  typedChars : Int
  errors : Int
  cursorPos : Int
  elapsedTime : Int
deriving DecidableEq, Repr

/-- The zero values the package-level variables hold when `main` begins. -/
def zeroState : State :=
  { testText := [], startTime := 0, testStarted := false, testCompleted := false,
    states := [], typedChars := 0, errors := 0, cursorPos := 0, elapsedTime := 0 }

/-! ## termbox events -/

/-- The type `termbox.EventType`. -/
inductive EventType where
  | EventKey
  | EventResize
  | EventMouse
  | EventError
  | EventInterrupt
  | EventRaw
  | EventNone
deriving DecidableEq, Repr

/-- The fields of `termbox.Event` read by `main`: `Type`, `Key` and `Ch`. -/
structure Event where
  type : EventType
  key : Nat
  ch : Nat
deriving DecidableEq, Repr

def KeyCtrlC : Nat := 0x03
def KeyBackspace : Nat := 0x08
def KeyEsc : Nat := 0x1B
def KeySpace : Nat := 0x20
def KeyBackspace2 : Nat := 0x7F

/-! ## Strings: `len` and `range` -/

/-- A UTF-8 continuation byte. -/
def isCont (b : Nat) : Bool := decide (0x80 ≤ b) && decide (b ≤ 0xBF)

/-- The rune that starts a byte sequence and the number of bytes it takes, as
`range` over a string decodes it: an invalid encoding yields U+FFFD and takes
one byte. -/
def decodeRune : List Nat → Nat × Nat
  | [] => (0xFFFD, 1)
  | b0 :: rest =>
    if b0 < 0x80 then (b0, 1)
    else if 0xC0 ≤ b0 ∧ b0 < 0xE0 then
      match rest with
      | b1 :: _ =>
        let r := (b0 % 32) * 64 + b1 % 64
        if isCont b1 = true ∧ 0x7F < r then (r, 2) else (0xFFFD, 1)
      | _ => (0xFFFD, 1)
    else if 0xE0 ≤ b0 ∧ b0 < 0xF0 then
      match rest with
      | b1 :: b2 :: _ =>
        let r := (b0 % 16) * 4096 + (b1 % 64) * 64 + b2 % 64
        if isCont b1 = true ∧ isCont b2 = true ∧ 0x7FF < r ∧ ¬ (0xD800 ≤ r ∧ r ≤ 0xDFFF)
        then (r, 3) else (0xFFFD, 1)
      | _ => (0xFFFD, 1)
    else if 0xF0 ≤ b0 ∧ b0 < 0xF8 then
      match rest with
      | b1 :: b2 :: b3 :: _ =>
        let r := (b0 % 8) * 262144 + (b1 % 64) * 4096 + (b2 % 64) * 64 + b3 % 64
        if isCont b1 = true ∧ isCont b2 = true ∧ isCont b3 = true ∧ 0xFFFF < r ∧ r ≤ 0x10FFFF
        then (r, 4) else (0xFFFD, 1)
      | _ => (0xFFFD, 1)
    else (0xFFFD, 1)

/-- The iterations of `for i, char := range text` over the bytes that remain:
`idx` is the byte index of the head and `skip` the number of bytes still
belonging to the rune decoded last. -/
def rangeFrom : Nat → Nat → List Nat → List (Nat × Nat)
  | _, _, [] => []
  | idx, 0, b :: rest =>
    (idx, (decodeRune (b :: rest)).1) ::
      rangeFrom (idx + 1) ((decodeRune (b :: rest)).2 - 1) rest
  | idx, k + 1, _ :: rest => rangeFrom (idx + 1) k rest

/-- The pairs `(i, char)` produced by `for i, char := range text`. -/
def rangeString (text : List Nat) : List (Nat × Nat) := rangeFrom 0 0 text

/-- The number of code points of a string (`utf8.RuneCountInString`). -/
def runeCount (text : List Nat) : Nat := (rangeString text).length

/-! ## Slice accesses -/

/-- The value of `states[i]`. -/
def slotAt (states : List charState) (i : Int) : Option charState :=
  if i < 0 then none else states[i.toNat]?

/-- An assignment to a field of `states[i]`. -/
def updateSlot (states : List charState) (i : Int) (f : charState → charState) :
    Option (List charState) :=
  match slotAt states i with
  | none => none
  | some c => some (states.set i.toNat (f c))

/-! ## `setup` -/

/-- The slice built by `make` and the `range` loop of `setup`. -/
def freshStates (text : List Nat) : List charState :=
  (rangeString text).foldl (fun st p => st.set p.1 { char := p.2 })
    (List.replicate text.length {})

/-- The statement `if len(states) > 0 { states[0].isCursor = true }`. -/
def markFirst : List charState → List charState
  | [] => []
  | c :: rest => { c with isCursor := true } :: rest

/-- The function `setup`; `pick` is the paragraph the random index selects. -/
def setup (pick : List Nat) (s : State) : State :=
  { s with
    testText := pick
    states := markFirst (freshStates pick)
    cursorPos := 0
    typedChars := 0
    errors := 0
    testStarted := false
    testCompleted := false
    elapsedTime := 0 }

/-! ## `redrawScreen` -/

/-- The number of nanoseconds of `time.Second`. -/
def Second : Int := 1000000000

/-- The condition `elapsedTime.Seconds() >= float64(*timeLimit)`. -/
def timeUp (timeLimit : Int) (s : State) : Prop := timeLimit * Second ≤ s.elapsedTime

instance (timeLimit : Int) (s : State) : Decidable (timeUp timeLimit s) :=
  inferInstanceAs (Decidable (timeLimit * Second ≤ s.elapsedTime))

/-- The condition `cursorPos >= len(testText) || elapsedTime.Seconds() >= float64(*timeLimit)`
of `redrawScreen` and `main`. -/
def finished (timeLimit : Int) (s : State) : Prop :=
  (s.testText.length : Int) ≤ s.cursorPos ∨ timeUp timeLimit s

instance (timeLimit : Int) (s : State) : Decidable (finished timeLimit s) :=
  inferInstanceAs (Decidable ((s.testText.length : Int) ≤ s.cursorPos ∨ timeUp timeLimit s))

/-- The statement `elapsedTime = time.Since(startTime)` under `if testStarted`;
`now` is the clock reading. -/
def sampleElapsed (now : Int) (s : State) : State :=
  if s.testStarted = true then { s with elapsedTime := now - s.startTime } else s

/-- The method `Duration.Seconds`: a duration as a number of seconds. -/
def Seconds (d : Int) : ℚ := (d : ℚ) / 1000000000

/-- The method `Duration.Minutes`: a duration as a number of minutes. -/
def Minutes (d : Int) : ℚ := (d : ℚ) / (60 * 1000000000)

/-- The variable `wpm` of `redrawScreen`, from the state after the sampling. -/
def wpm (timeLimit : Int) (s : State) : ℚ :=
  if s.testStarted = true then
    if 0 < Minutes s.elapsedTime then
      if (timeLimit : ℚ) < Seconds s.elapsedTime then
        (((s.typedChars - s.errors : Int) : ℚ) / 5) / ((timeLimit : ℚ) / 60)
      else
        (((s.typedChars - s.errors : Int) : ℚ) / 5) / Minutes s.elapsedTime
    else 0
  else 0

/-- The variable `accuracy` of `redrawScreen`, from the state after the sampling. -/
def accuracy (s : State) : ℚ :=
  if s.testStarted = true then
    if 0 < s.typedChars then
      (((s.typedChars - s.errors : Int) : ℚ) / ((s.typedChars : Int) : ℚ)) * 100
    else 0
  else 0

/-- The pair `(wpm, accuracy)` a call of `redrawScreen` at the instant `now`
computes and shows. -/
def shownMetrics (timeLimit : Int) (now : Int) (s : State) : ℚ × ℚ :=
  (wpm timeLimit (sampleElapsed now s), accuracy (sampleElapsed now s))

/-- The effect of `redrawScreen` on the package-level variables: the sampling
of `elapsedTime` and, when the test is over, the flag `testCompleted`. -/
def redrawScreen (timeLimit : Int) (now : Int) (s : State) : State :=
  if finished timeLimit (sampleElapsed now s) then
    { sampleElapsed now s with testCompleted := true }
  else sampleElapsed now s

/-! ## The event loop of `main` -/

/-- What one turn of the loop leads to. -/
inductive Outcome where
  | quit : Outcome
  | next : State → Outcome
  | fault : Outcome
deriving DecidableEq, Repr

/-- The loop goes on with the state computed, or stops on an index fault. -/
def Outcome.ofOption : Option State → Outcome
  | some s => Outcome.next s
  | none => Outcome.fault

/-- The body of `if cursorPos > 0` in the backspace branch. -/
def eraseBack (s : State) : Option State := do
  let st1 ← updateSlot s.states s.cursorPos (fun c => { c with isCursor := false })
  let cp := s.cursorPos - 1
  let st2 ← updateSlot st1 cp (fun c => { c with isCursor := true })
  let c ← slotAt st2 cp
  if c.typed = true then
    let errs := if c.correct = false then s.errors - 1 else s.errors
    let st3 ← updateSlot st2 cp (fun c => { c with typed := false })
    let st4 ← updateSlot st3 cp (fun c => { c with correct := false })
    pure { s with states := st4, cursorPos := cp, typedChars := s.typedChars - 1, errors := errs }
  else
    pure { s with states := st2, cursorPos := cp }

/-- The value of `typedChar`: a space if the spacebar was pressed. -/
def typedChar (ev : Event) : Nat := if ev.key = KeySpace then 32 else ev.ch

/-- The body of `if unicode.IsPrint(typedChar)` in the character branch. -/
def typeChar (tc : Nat) (s : State) : Option State := do
  let st1 ← updateSlot s.states s.cursorPos (fun c => { c with typed := true })
  let typedChars := s.typedChars + 1
  let c ← slotAt st1 s.cursorPos
  let st2 ← updateSlot st1 s.cursorPos (fun d => { d with correct := decide (tc = c.char) })
  let errs := if tc = c.char then s.errors else s.errors + 1
  let st3 ← updateSlot st2 s.cursorPos (fun c => { c with isCursor := false })
  let cp := s.cursorPos + 1
  if cp < (s.testText.length : Int) then
    let st4 ← updateSlot st3 cp (fun c => { c with isCursor := true })
    pure { s with states := st4, cursorPos := cp, typedChars := typedChars, errors := errs }
  else
    pure { s with states := st3, cursorPos := cp, typedChars := typedChars, errors := errs }

/-- The statement `if !testStarted { startTime = time.Now(); testStarted = true }`. -/
def startTimer (now : Int) (s : State) : State :=
  if s.testStarted = false then { s with startTime := now, testStarted := true } else s

/-- The character-input branch of `main`. -/
def charInput (isPrint : Nat → Bool) (now : Int) (ev : Event) (s : State) : Option State :=
  if isPrint (typedChar ev) = true then typeChar (typedChar ev) (startTimer now s)
  else some (startTimer now s)

/-- The handling of one polled event by the body of the loop of `main`, after
the call of `redrawScreen`: `now` is the clock reading while the event is
handled and `pick` the paragraph a restart selects. -/
def handleEvent (isPrint : Nat → Bool) (timeLimit : Int) (pick : List Nat) (now : Int)
    (ev : Event) (s : State) : Outcome :=
  if ev.type = EventType.EventKey then
    if ev.key = KeyEsc ∨ ev.key = KeyCtrlC then Outcome.quit
    else if (ev.ch = 114 ∨ ev.ch = 82) ∧ finished timeLimit s then
      Outcome.next (setup pick s)
    else if finished timeLimit s then Outcome.next s
    else if (ev.key = KeyBackspace ∨ ev.key = KeyBackspace2) ∧ ¬ timeUp timeLimit s then
      if 0 < s.cursorPos then Outcome.ofOption (eraseBack s) else Outcome.next s
    else if (ev.ch ≠ 0 ∨ ev.key = KeySpace) ∧ ¬ timeUp timeLimit s then
      Outcome.ofOption (charInput isPrint now ev s)
    else Outcome.next s
  else Outcome.next s

/-- One turn of the loop: what the clock reads in `redrawScreen` and while the
event is handled, the event polled, and the paragraph a restart would select. -/
structure Turn where
  drawAt : Int
  ev : Event
  evAt : Int
  pick : List Nat
deriving DecidableEq, Repr

/-- One turn of the loop of `main`: `redrawScreen`, then the polled event. -/
def turn (isPrint : Nat → Bool) (timeLimit : Int) (t : Turn) (s : State) : Outcome :=
  handleEvent isPrint timeLimit t.pick t.evAt t.ev (redrawScreen timeLimit t.drawAt s)

/-- Successive turns of the loop. -/
def runLoop (isPrint : Nat → Bool) (timeLimit : Int) : List Turn → State → Outcome
  | [], s => Outcome.next s
  | t :: rest, s =>
    match turn isPrint timeLimit t s with
    | Outcome.next s1 => runLoop isPrint timeLimit rest s1
    | o => o

/-! ## Reachable states -/

/-- The states the program goes through: the state `setup` leaves when `main`
begins, and from there every state after a call of `redrawScreen` and every
state in which the loop goes on after an event. -/
inductive Reachable (isPrint : Nat → Bool) (timeLimit : Int) : State → Prop where
  | start (pick : List Nat) : Reachable isPrint timeLimit (setup pick zeroState)
  | redraw (now : Int) (s : State) :
      Reachable isPrint timeLimit s → Reachable isPrint timeLimit (redrawScreen timeLimit now s)
  | handle (pick : List Nat) (now : Int) (ev : Event) (s s1 : State) :
      Reachable isPrint timeLimit s →
      handleEvent isPrint timeLimit pick now ev s = Outcome.next s1 →
      Reachable isPrint timeLimit s1

/-! ## Vocabulary of the proofs -/

/-- The list with the entry at `i`, if there is one, changed by `f`. -/
def modAt (l : List charState) (i : Nat) (f : charState → charState) : List charState :=
  match l[i]? with
  | some c => l.set i (f c)
  | none => l

/-- The slot under the cursor once the character `tc` is typed on it. -/
def markTyped (tc : Nat) (c : charState) : charState :=
  { c with typed := true, correct := decide (tc = c.char), isCursor := false }

/-- The slot the cursor moves back onto, once erased. -/
def unmark (c : charState) : charState :=
  { c with isCursor := true, typed := false, correct := false }

/-- The slots after a printable character `tc` is typed at index `n`. -/
def typedStates (tc : Nat) (n : Nat) (l : List charState) : List charState :=
  modAt (modAt l n (markTyped tc)) (n + 1) (fun c => { c with isCursor := true })

/-- The slots after the cursor moves back from index `m + 1` onto the typed slot `m`. -/
def erasedStates (m : Nat) (l : List charState) : List charState :=
  modAt (modAt l (m + 1) (fun c => { c with isCursor := false })) m unmark

/-- A slot that is typed and marked incorrect. -/
def wrong (c : charState) : Bool := c.typed && !c.correct

/-- The slots when the cursor is at `n`: the cursor mark is on slot `n` only,
the slots before `n` are the typed ones, and no slot from `n` on is marked
correct. -/
def SlotsOk (n : Nat) (l : List charState) : Prop :=
  ∀ i c, l[i]? = some c →
    c.isCursor = decide (i = n) ∧ c.typed = decide (i < n) ∧ (n ≤ i → c.correct = false)

/-- The invariant of the event loop. -/
def Inv (s : State) : Prop :=
  s.states.length = s.testText.length ∧
  ∃ n : Nat, s.cursorPos = (n : Int) ∧ n ≤ s.testText.length ∧ s.typedChars = (n : Int) ∧
    SlotsOk n s.states ∧ s.errors = ((s.states.countP wrong : Nat) : Int) ∧
    s.states.countP (fun c => c.typed) = n

/-- The variables the invariant is about. -/
def core (s : State) : List Nat × List charState × Int × Int × Int :=
  (s.testText, s.states, s.cursorPos, s.typedChars, s.errors)

/-- A key event that a state in which the test is not over takes to the
character-input branch. -/
def CharInputEv (ev : Event) : Prop :=
  ev.type = EventType.EventKey ∧ ev.key ≠ KeyEsc ∧ ev.key ≠ KeyCtrlC ∧
    ev.key ≠ KeyBackspace ∧ ev.key ≠ KeyBackspace2 ∧ (ev.ch ≠ 0 ∨ ev.key = KeySpace)

instance (ev : Event) : Decidable (CharInputEv ev) :=
  inferInstanceAs (Decidable (ev.type = EventType.EventKey ∧ ev.key ≠ KeyEsc ∧
    ev.key ≠ KeyCtrlC ∧ ev.key ≠ KeyBackspace ∧ ev.key ≠ KeyBackspace2 ∧
    (ev.ch ≠ 0 ∨ ev.key = KeySpace)))

/-- A key event of one of the two backspace keys. -/
def BackspaceEv (ev : Event) : Prop :=
  ev.type = EventType.EventKey ∧ (ev.key = KeyBackspace ∨ ev.key = KeyBackspace2)

instance (ev : Event) : Decidable (BackspaceEv ev) :=
  inferInstanceAs (Decidable (ev.type = EventType.EventKey ∧
    (ev.key = KeyBackspace ∨ ev.key = KeyBackspace2)))

/-- No turn of the list finds the test over: after each call of `redrawScreen`
the guard `cursorPos >= len(testText) || elapsedTime.Seconds() >= float64(*timeLimit)`
is false. -/
def allLive (isPrint : Nat → Bool) (timeLimit : Int) : List Turn → State → Bool
  | [], _ => true
  | t :: rest, s =>
    decide (¬ finished timeLimit (redrawScreen timeLimit t.drawAt s)) &&
      (match turn isPrint timeLimit t s with
       | Outcome.next s1 => allLive isPrint timeLimit rest s1
       | _ => true)

/-- The state after a printable character `tc` is typed on slot `n`, which held `c`. -/
def typedState (tc n : Nat) (c : charState) (s : State) : State :=
  { s with
    states := typedStates tc n s.states
    cursorPos := ((n + 1 : Nat) : Int)
    typedChars := s.typedChars + 1
    errors := if tc = c.char then s.errors else s.errors + 1 }

/-- The state after the cursor moves back onto slot `m`, which held `c`. -/
def erasedState (m : Nat) (c : charState) (s : State) : State :=
  { s with
    states := erasedStates m s.states
    cursorPos := (m : Int)
    typedChars := s.typedChars - 1
    errors := if c.correct = false then s.errors - 1 else s.errors }

/-! ## Events and passages of the worked traces -/

/-- The table of `unicode.IsPrint` on the Latin-1 range (runes up to U+00FF):
the graphic characters and the ASCII space, hence neither the control
characters, nor the no-break space U+00A0, nor the soft hyphen U+00AD. It is
the value of `isPrint` in the worked traces, which only use such runes. -/
def isPrintLatin1 (r : Nat) : Bool :=
  (decide (0x20 ≤ r) && decide (r ≤ 0x7E)) ||
    (decide (0xA1 ≤ r) && decide (r ≤ 0xFF) && decide (r ≠ 0xAD))

/-- A key event carrying the character `r`. -/
def charKey (r : Nat) : Event := { type := EventType.EventKey, key := 0, ch := r }

/-- A key event of the backspace key. -/
def backspaceKey : Event := { type := EventType.EventKey, key := KeyBackspace2, ch := 0 }

/-- The passage "cat". -/
def cat : List Nat := [99, 97, 116]

/-- A turn of the loop: the screen is drawn `drawAt` seconds and the event
handled `evAt` seconds after the clock's origin. -/
def keyTurn (drawAt evAt : Int) (ev : Event) : Turn :=
  { drawAt := drawAt * Second, ev := ev, evAt := evAt * Second, pick := cat }

/-- The state once `c` is typed on "cat", one second after the clock's origin. -/
def afterC : State :=
  { testText := cat, startTime := 1000000000, testStarted := true, testCompleted := false,
    states := [{ char := 99, correct := true, typed := true, isCursor := false },
               { char := 97, correct := false, typed := false, isCursor := true },
               { char := 116, correct := false, typed := false, isCursor := false }],
    typedChars := 1, errors := 0, cursorPos := 1, elapsedTime := 0 }

/-- The state once `c`, `a`, `t` are typed on "cat", one, two and three seconds
after the clock's origin. -/
def catDone : State :=
  { testText := cat, startTime := 1000000000, testStarted := true, testCompleted := false,
    states := [{ char := 99, correct := true, typed := true, isCursor := false },
               { char := 97, correct := true, typed := true, isCursor := false },
               { char := 116, correct := true, typed := true, isCursor := false }],
    typedChars := 3, errors := 0, cursorPos := 3, elapsedTime := 1000000000 }

/-- The state `catDone` after one more turn: the screen drawn at second 4, a key
pressed at second 5. -/
def catDoneSeen : State :=
  { catDone with testCompleted := true, elapsedTime := 3000000000 }

/-- The state once `c` is typed on "cat" at second 1 and `a` at second 101. -/
def lateA : State :=
  { testText := cat, startTime := 1000000000, testStarted := true, testCompleted := false,
    states := [{ char := 99, correct := true, typed := true, isCursor := false },
               { char := 97, correct := true, typed := true, isCursor := false },
               { char := 116, correct := false, typed := false, isCursor := true }],
    typedChars := 2, errors := 0, cursorPos := 2, elapsedTime := 0 }

/-- The state `afterC` once the key `r` is pressed at second 2. -/
def afterCR : State :=
  { testText := cat, startTime := 1000000000, testStarted := true, testCompleted := false,
    states := [{ char := 99, correct := true, typed := true, isCursor := false },
               { char := 97, correct := false, typed := true, isCursor := false },
               { char := 116, correct := false, typed := false, isCursor := true }],
    typedChars := 2, errors := 1, cursorPos := 2, elapsedTime := 0 }

/-- The state `afterC` once a no-break space (U+00A0) is received at second 2
and the backspace key pressed at second 3. -/
def afterNbspBack : State :=
  { testText := cat, startTime := 1000000000, testStarted := true, testCompleted := false,
    states := [{ char := 99, correct := false, typed := false, isCursor := true },
               { char := 97, correct := false, typed := false, isCursor := false },
               { char := 116, correct := false, typed := false, isCursor := false }],
    typedChars := 0, errors := 0, cursorPos := 0, elapsedTime := 1000000000 }

/-- The state `setup` leaves on "cat" once a no-break space is received at second 1. -/
def idleNbsp : State :=
  { setup cat zeroState with startTime := 1000000000, testStarted := true }

/-- A started state with 10 characters typed, 2 of them wrong, 30 s after the start. -/
def mid30 : State :=
  { zeroState with testStarted := true, typedChars := 10, errors := 2,
                   elapsedTime := 30000000000 }

/-- A started state with 10 characters typed, 2 of them wrong, 65 s after the start. -/
def late65 : State :=
  { zeroState with testStarted := true, typedChars := 10, errors := 2,
                   elapsedTime := 65000000000 }

/-! ## Slice accesses at an index in range -/

theorem length_modAt (l : List charState) (i : Nat) (f : charState → charState) :
    (modAt l i f).length = l.length := by
  unfold modAt; split <;> simp

theorem getElem?_modAt (l : List charState) (i j : Nat) (f : charState → charState) :
    (modAt l i f)[j]? = if i = j then (l[j]?).map f else l[j]? := by
  unfold modAt
  by_cases hij : i = j
  · subst hij
    cases h : l[i]? with
    | none => simp [h]
    | some c =>
      have hi : i < l.length := by
        by_contra hc
        rw [List.getElem?_eq_none (by omega)] at h
        cases h
      simp [h, List.getElem?_set, hi]
  · cases h : l[i]? with
    | none => simp [hij]
    | some c => simp [hij]

theorem modAt_of_none (l : List charState) (i : Nat) (f : charState → charState)
    (h : l[i]? = none) : modAt l i f = l := by
  simp [modAt, h]

theorem slotAt_nat (l : List charState) (n : Nat) : slotAt l (n : Int) = l[n]? := by
  simp [slotAt]

theorem updateSlot_nat (l : List charState) (n : Nat) (f : charState → charState) (c : charState)
    (h : l[n]? = some c) : updateSlot l (n : Int) f = some (modAt l n f) := by
  simp [updateSlot, slotAt_nat, modAt, h]

theorem countP_modAt (p : charState → Bool) (l : List charState) (i : Nat)
    (f : charState → charState) (c : charState) (h : l[i]? = some c) :
    (modAt l i f).countP p + (if p c = true then 1 else 0)
      = l.countP p + (if p (f c) = true then 1 else 0) := by
  have hi : i < l.length := by
    by_contra hc
    rw [List.getElem?_eq_none (by omega)] at h
    cases h
  have hc : l[i] = c := by
    rw [List.getElem?_eq_getElem hi] at h
    exact Option.some.inj h
  have hle := List.boole_getElem_le_countP p l i hi
  simp only [modAt, h, List.countP_set p l i (f c) hi, hc] at hle ⊢
  split_ifs at hle ⊢ <;> omega

theorem updateSlot_lt (l : List charState) (n : Nat) (f : charState → charState)
    (h : n < l.length) : updateSlot l (n : Int) f = some (modAt l n f) := by
  apply updateSlot_nat l n f l[n]
  exact List.getElem?_eq_getElem h

theorem lt_length_of_getElem? (l : List charState) (i : Nat) (c : charState)
    (h : l[i]? = some c) : i < l.length := by
  by_contra hc
  rw [List.getElem?_eq_none (by omega)] at h
  cases h

/-! ## The two moves of the cursor, in closed form -/

theorem typedStates_nested (tc n : Nat) (l : List charState) (c : charState)
    (hc : l[n]? = some c) :
    modAt (modAt (modAt (modAt l n (fun c => { c with typed := true }))
      n (fun d => { d with correct := decide (tc = c.char) }))
      n (fun c => { c with isCursor := false }))
      (n + 1) (fun c => { c with isCursor := true }) = typedStates tc n l := by
  apply List.ext_getElem?
  intro j
  simp only [typedStates, markTyped, getElem?_modAt]
  by_cases h1 : n = j
  · subst h1
    simp [hc, markTyped]
  · simp [h1]

theorem typeChar_eq (tc : Nat) (s : State) (n : Nat) (c : charState)
    (hcp : s.cursorPos = (n : Int)) (hc : s.states[n]? = some c)
    (hlen : s.states.length = s.testText.length) :
    typeChar tc s = some { s with
      states := typedStates tc n s.states
      cursorPos := ((n + 1 : Nat) : Int)
      typedChars := s.typedChars + 1
      errors := if tc = c.char then s.errors else s.errors + 1 } := by
  have hn : n < s.states.length := lt_length_of_getElem? _ _ _ hc
  have h1 : (n : Int) + 1 = ((n + 1 : Nat) : Int) := by push_cast; rfl
  have hN := typedStates_nested tc n s.states c hc
  unfold typeChar
  rw [hcp, h1]
  simp only [updateSlot_lt, slotAt_nat, length_modAt, getElem?_modAt, hn, hc, if_true,
    Option.map_some', Option.bind_eq_bind, Option.some_bind, Option.pure_def, Option.bind_some]
  by_cases h : ((n + 1 : Nat) : Int) < (s.testText.length : Int)
  · have hn1 : n + 1 < s.states.length := by
      have : n + 1 < s.testText.length := by exact_mod_cast h
      omega
    rw [if_pos h]
    simp only [updateSlot_lt, length_modAt, hn1, Option.some_bind]
    rw [hN]
  · have hn1 : s.states[n + 1]? = none := by
      apply List.getElem?_eq_none
      have : ¬ (n + 1 < s.testText.length) := fun h2 => h (by exact_mod_cast h2)
      omega
    rw [if_neg h]
    rw [← hN, modAt_of_none _ (n + 1)]
    simp [getElem?_modAt, hn1]

theorem eraseBack_eq (s : State) (m : Nat) (c : charState)
    (hcp : s.cursorPos = ((m + 1 : Nat) : Int)) (hm : m + 1 < s.states.length)
    (hc : s.states[m]? = some c) (ht : c.typed = true) :
    eraseBack s = some { s with
      states := erasedStates m s.states
      cursorPos := (m : Int)
      typedChars := s.typedChars - 1
      errors := if c.correct = false then s.errors - 1 else s.errors } := by
  have h1 : ((m + 1 : Nat) : Int) - 1 = (m : Int) := by push_cast; omega
  have hm0 : m < s.states.length := by omega
  have hL : modAt (modAt (modAt (modAt s.states (m + 1) (fun c => { c with isCursor := false }))
      m (fun c => { c with isCursor := true })) m (fun c => { c with typed := false }))
      m (fun c => { c with correct := false }) = erasedStates m s.states := by
    apply List.ext_getElem?
    intro j
    simp only [erasedStates, unmark, getElem?_modAt]
    by_cases h2 : m = j
    · subst h2
      simp [hc, unmark]
    · simp [h2]
  unfold eraseBack
  rw [hcp, h1]
  simp only [updateSlot_lt, slotAt_nat, length_modAt, getElem?_modAt, hm, hm0, hc, if_true,
    Option.map_some', Option.bind_eq_bind, Option.some_bind, Option.pure_def, Option.bind_some,
    ht, hL]
  simp [ht]

theorem countP_modAt_same (p : charState → Bool) (l : List charState) (i : Nat)
    (f : charState → charState) (hf : ∀ c, p (f c) = p c) :
    (modAt l i f).countP p = l.countP p := by
  cases h : l[i]? with
  | none => rw [modAt_of_none l i f h]
  | some c =>
    have := countP_modAt p l i f c h
    rw [hf c] at this
    omega

/-! ## The slots `setup` makes -/

theorem foldl_set_length (ps : List (Nat × Nat)) (st : List charState) :
    (ps.foldl (fun st p => st.set p.1 { char := p.2 }) st).length = st.length := by
  induction ps generalizing st with
  | nil => rfl
  | cons p ps ih => simp [List.foldl_cons, ih]

theorem foldl_set_blank (ps : List (Nat × Nat)) (st : List charState)
    (h : ∀ c ∈ st, c.correct = false ∧ c.typed = false ∧ c.isCursor = false) :
    ∀ c ∈ ps.foldl (fun st p => st.set p.1 { char := p.2 }) st,
      c.correct = false ∧ c.typed = false ∧ c.isCursor = false := by
  induction ps generalizing st with
  | nil => simpa using h
  | cons p ps ih =>
    rw [List.foldl_cons]
    apply ih
    intro c hc
    rcases List.mem_or_eq_of_mem_set hc with h1 | h1
    · exact h c h1
    · subst h1
      exact ⟨rfl, rfl, rfl⟩

theorem length_freshStates (text : List Nat) : (freshStates text).length = text.length := by
  simp [freshStates, foldl_set_length]

theorem freshStates_blank (text : List Nat) :
    ∀ c ∈ freshStates text, c.correct = false ∧ c.typed = false ∧ c.isCursor = false := by
  apply foldl_set_blank
  intro c hc
  rw [List.mem_replicate] at hc
  rw [hc.2]
  exact ⟨rfl, rfl, rfl⟩

theorem length_markFirst (l : List charState) : (markFirst l).length = l.length := by
  cases l <;> rfl

theorem getElem?_markFirst (l : List charState) (i : Nat) :
    (markFirst l)[i]? = if i = 0 then (l[i]?).map (fun c => { c with isCursor := true })
      else l[i]? := by
  cases l with
  | nil => simp [markFirst]
  | cons c rest =>
    cases i with
    | zero => simp [markFirst]
    | succ k => simp [markFirst]

theorem mem_markFirst (l : List charState) (c : charState) (h : c ∈ markFirst l) :
    ∃ d ∈ l, c.char = d.char ∧ c.correct = d.correct ∧ c.typed = d.typed := by
  cases l with
  | nil => simp [markFirst] at h
  | cons a rest =>
    simp only [markFirst, List.mem_cons] at h
    rcases h with h | h
    · exact ⟨a, List.mem_cons_self _ _, by simp [h]⟩
    · exact ⟨c, List.mem_cons_of_mem _ h, rfl, rfl, rfl⟩

theorem Inv_setup (pick : List Nat) (s : State) : Inv (setup pick s) := by
  have hb := freshStates_blank pick
  have hun : ∀ c ∈ markFirst (freshStates pick), c.typed = false ∧ c.correct = false := by
    intro c hc
    obtain ⟨d, hd, -, h2, h3⟩ := mem_markFirst _ _ hc
    exact ⟨h3.trans (hb d hd).2.1, h2.trans (hb d hd).1⟩
  refine ⟨?_, 0, rfl, Nat.zero_le _, rfl, ?_, ?_, ?_⟩
  · simp [setup, length_markFirst, length_freshStates]
  · intro i c hc
    simp only [setup, getElem?_markFirst] at hc
    by_cases hi : i = 0
    · subst hi
      simp only [if_true] at hc
      cases hf : (freshStates pick)[0]? with
      | none => simp [hf] at hc
      | some d =>
        have hd := hb d (List.getElem?_mem hf)
        simp only [hf, Option.map_some', Option.some.injEq] at hc
        subst hc
        simp [hd.1, hd.2.1]
    · simp only [hi, if_false] at hc
      have hd := hb c (List.getElem?_mem hc)
      simp [hd.1, hd.2.1, hd.2.2, hi]
  · have : (markFirst (freshStates pick)).countP wrong = 0 := by
      rw [List.countP_eq_zero]
      intro c hc
      simp [wrong, (hun c hc).1]
    simp [setup, this]
  · show (markFirst (freshStates pick)).countP (fun c => c.typed) = 0
    rw [List.countP_eq_zero]
    intro c hc
    simp [(hun c hc).1]

/-! ## The invariant is kept -/

theorem SlotsOk_typedStates (tc n : Nat) (l : List charState) (h : SlotsOk n l) :
    SlotsOk (n + 1) (typedStates tc n l) := by
  intro j d hd
  simp only [typedStates, markTyped, getElem?_modAt] at hd
  cases hj : l[j]? with
  | none => simp [hj] at hd
  | some d0 =>
    obtain ⟨h1, h2, h3⟩ := h j d0 hj
    by_cases e1 : n = j
    · subst e1
      have e2 : ¬ (n + 1 = n) := by omega
      simp only [hj, e2, if_true, if_false, Option.map_some', Option.some.injEq] at hd
      subst hd
      simp [markTyped, unmark]
    · by_cases e2 : n + 1 = j
      · subst e2
        simp only [hj, e1, if_true, if_false, Option.map_some', Option.some.injEq] at hd
        subst hd
        simp at h2
        simp [h2, h3]
      · simp only [hj, e1, e2, if_false, Option.some.injEq] at hd
        subst hd
        have e3 : ¬ j = n := fun e => e1 e.symm
        have e4 : ¬ j = n + 1 := fun e => e2 e.symm
        refine ⟨by simp [h1, e3, e4], ?_, fun hle => h3 (by omega)⟩
        rw [h2]
        simp only [decide_eq_decide]
        omega

theorem SlotsOk_erasedStates (m : Nat) (l : List charState) (h : SlotsOk (m + 1) l) :
    SlotsOk m (erasedStates m l) := by
  intro j d hd
  simp only [erasedStates, unmark, getElem?_modAt] at hd
  cases hj : l[j]? with
  | none => simp [hj] at hd
  | some d0 =>
    obtain ⟨h1, h2, h3⟩ := h j d0 hj
    by_cases e1 : m = j
    · subst e1
      have e2 : ¬ (m + 1 = m) := by omega
      simp only [hj, e2, if_true, if_false, Option.map_some', Option.some.injEq] at hd
      subst hd
      simp [markTyped, unmark]
    · by_cases e2 : m + 1 = j
      · subst e2
        simp only [hj, e1, if_true, if_false, Option.map_some', Option.some.injEq] at hd
        subst hd
        simp at h2
        simp [h2, h3]
      · simp only [hj, e1, e2, if_false, Option.some.injEq] at hd
        subst hd
        have e3 : ¬ j = m := fun e => e1 e.symm
        have e4 : ¬ j = m + 1 := fun e => e2 e.symm
        refine ⟨by simp [h1, e3, e4], ?_, fun hle => h3 (by omega)⟩
        rw [h2]
        simp only [decide_eq_decide]
        omega

theorem countP_typedStates (p : charState → Bool) (tc n : Nat) (l : List charState)
    (c : charState) (hc : l[n]? = some c)
    (hp : ∀ d : charState, p { d with isCursor := true } = p d) :
    (typedStates tc n l).countP p + (if p c = true then 1 else 0)
      = l.countP p + (if p (markTyped tc c) = true then 1 else 0) := by
  unfold typedStates
  rw [countP_modAt_same p _ (n + 1) _ hp]
  exact countP_modAt p l n _ c hc

theorem countP_erasedStates (p : charState → Bool) (m : Nat) (l : List charState)
    (c : charState) (hc : l[m]? = some c)
    (hp : ∀ d : charState, p { d with isCursor := false } = p d) :
    (erasedStates m l).countP p + (if p c = true then 1 else 0)
      = l.countP p + (if p (unmark c) = true then 1 else 0) := by
  unfold erasedStates
  have hc2 : (modAt l (m + 1) (fun c => { c with isCursor := false }))[m]? = some c := by
    rw [getElem?_modAt]
    simp [hc]
  rw [countP_modAt p _ m _ c hc2, countP_modAt_same p _ (m + 1) _ hp]

theorem Inv_typed (tc : Nat) (s : State) (n : Nat) (c : charState) (hI : Inv s)
    (hcp : s.cursorPos = (n : Int)) (hc : s.states[n]? = some c) :
    Inv { s with
      states := typedStates tc n s.states
      cursorPos := ((n + 1 : Nat) : Int)
      typedChars := s.typedChars + 1
      errors := if tc = c.char then s.errors else s.errors + 1 } := by
  obtain ⟨hlen, k, hk, hkl, htc, hS, herr, hty⟩ := hI
  have hkn : k = n := by
    have : (k : Int) = (n : Int) := hk.symm.trans hcp
    exact_mod_cast this
  subst hkn
  have hn : k < s.states.length := lt_length_of_getElem? _ _ _ hc
  obtain ⟨-, c2, -⟩ := hS k c hc
  simp at c2
  have w := countP_typedStates wrong tc k s.states c hc (fun d => rfl)
  have t := countP_typedStates (fun c => c.typed) tc k s.states c hc (fun d => rfl)
  simp only [wrong, markTyped, c2, Bool.false_and, Bool.true_and, Bool.not_eq_true',
    decide_eq_false_iff_not, if_true, if_false, Bool.false_eq_true, add_zero] at w t
  refine ⟨?_, k + 1, rfl, ?_, ?_, SlotsOk_typedStates tc k s.states hS, ?_, ?_⟩
  · simp [typedStates, length_modAt, hlen]
  · show k + 1 ≤ s.testText.length
    omega
  · show s.typedChars + 1 = ((k + 1 : Nat) : Int)
    rw [htc]; push_cast; rfl
  · show (if tc = c.char then s.errors else s.errors + 1)
      = ((List.countP wrong (typedStates tc k s.states) : Nat) : Int)
    rw [w, herr]
    split_ifs <;> simp
  · show List.countP (fun c => c.typed) (typedStates tc k s.states) = k + 1
    omega

theorem Inv_erased (s : State) (m : Nat) (c : charState) (hI : Inv s)
    (hcp : s.cursorPos = ((m + 1 : Nat) : Int)) (hc : s.states[m]? = some c) :
    Inv { s with
      states := erasedStates m s.states
      cursorPos := (m : Int)
      typedChars := s.typedChars - 1
      errors := if c.correct = false then s.errors - 1 else s.errors } := by
  obtain ⟨hlen, k, hk, hkl, htc, hS, herr, hty⟩ := hI
  have hkn : k = m + 1 := by
    have : (k : Int) = ((m + 1 : Nat) : Int) := hk.symm.trans hcp
    exact_mod_cast this
  subst hkn
  obtain ⟨-, c2, -⟩ := hS m c hc
  simp at c2
  have w := countP_erasedStates wrong m s.states c hc (fun d => rfl)
  have t := countP_erasedStates (fun c => c.typed) m s.states c hc (fun d => rfl)
  simp only [wrong, unmark, c2, Bool.false_and, Bool.true_and, Bool.not_eq_true',
    if_true, if_false, Bool.false_eq_true, add_zero] at w t
  refine ⟨?_, m, rfl, ?_, ?_, SlotsOk_erasedStates m s.states hS, ?_, ?_⟩
  · simp [erasedStates, length_modAt, hlen]
  · show m ≤ s.testText.length
    omega
  · show s.typedChars - 1 = (m : Int)
    rw [htc]; push_cast; omega
  · show (if c.correct = false then s.errors - 1 else s.errors)
      = ((List.countP wrong (erasedStates m s.states) : Nat) : Int)
    rw [herr]
    split_ifs with hcor
    · rw [if_pos hcor] at w
      omega
    · rw [if_neg hcor] at w
      omega
  · show List.countP (fun c => c.typed) (erasedStates m s.states) = m
    omega

theorem Inv_of_core (s s1 : State) (h : core s1 = core s) (hI : Inv s) : Inv s1 := by
  simp only [core, Prod.mk.injEq] at h
  obtain ⟨h1, h2, h3, h4, h5⟩ := h
  unfold Inv at hI ⊢
  rw [h1, h2, h3, h4, h5]
  exact hI

theorem core_startTimer (now : Int) (s : State) : core (startTimer now s) = core s := by
  unfold startTimer; split <;> rfl

theorem core_sampleElapsed (now : Int) (s : State) : core (sampleElapsed now s) = core s := by
  unfold sampleElapsed; split <;> rfl

theorem core_redrawScreen (timeLimit now : Int) (s : State) :
    core (redrawScreen timeLimit now s) = core s := by
  unfold redrawScreen
  split
  · exact core_sampleElapsed now s
  · exact core_sampleElapsed now s

theorem typeChar_of_Inv (tc : Nat) (s : State) (hI : Inv s)
    (hlt : s.cursorPos < (s.testText.length : Int)) :
    ∃ (n : Nat) (c : charState), s.cursorPos = (n : Int) ∧ s.states[n]? = some c ∧
      typeChar tc s = some { s with
        states := typedStates tc n s.states
        cursorPos := ((n + 1 : Nat) : Int)
        typedChars := s.typedChars + 1
        errors := if tc = c.char then s.errors else s.errors + 1 } := by
  obtain ⟨hlen, k, hk, -⟩ := hI
  have hkl : k < s.states.length := by
    rw [hk] at hlt
    have : k < s.testText.length := by exact_mod_cast hlt
    omega
  have hc : s.states[k]? = some s.states[k] := List.getElem?_eq_getElem hkl
  exact ⟨k, s.states[k], hk, hc, typeChar_eq tc s k _ hk hc hlen⟩

theorem eraseBack_of_Inv (s : State) (hI : Inv s) (h0 : 0 < s.cursorPos)
    (hlt : s.cursorPos < (s.testText.length : Int)) :
    ∃ (m : Nat) (c : charState), s.cursorPos = ((m + 1 : Nat) : Int) ∧ s.states[m]? = some c ∧
      eraseBack s = some { s with
        states := erasedStates m s.states
        cursorPos := (m : Int)
        typedChars := s.typedChars - 1
        errors := if c.correct = false then s.errors - 1 else s.errors } := by
  obtain ⟨hlen, k, hk, -, -, hS, -⟩ := hI
  rw [hk] at hlt h0
  have hkl : k < s.testText.length := by exact_mod_cast hlt
  have hk0 : 0 < k := by exact_mod_cast h0
  obtain ⟨m, rfl⟩ : ∃ m, k = m + 1 := ⟨k - 1, by omega⟩
  have hm : m < s.states.length := by omega
  have hc : s.states[m]? = some s.states[m] := List.getElem?_eq_getElem hm
  have ht : (s.states[m]).typed = true := by
    have := (hS m _ hc).2.1
    simpa using this
  exact ⟨m, s.states[m], hk, hc, eraseBack_eq s m _ hk (by omega) hc ht⟩

/-- What handling an event leads to from a state that satisfies the invariant:
never the index fault, and a state that satisfies the invariant again. -/
theorem handleEvent_Inv (isPrint : Nat → Bool) (timeLimit : Int) (pick : List Nat) (now : Int)
    (ev : Event) (s : State) (hI : Inv s) :
    handleEvent isPrint timeLimit pick now ev s ≠ Outcome.fault ∧
      ∀ s1, handleEvent isPrint timeLimit pick now ev s = Outcome.next s1 → Inv s1 := by
  unfold handleEvent
  split_ifs with h1 h2 h3 h4 h5 h6 h7
  · exact ⟨by simp, by simp⟩
  · refine ⟨by simp, ?_⟩
    intro s1 h
    cases h
    exact Inv_setup pick s
  · refine ⟨by simp, ?_⟩
    intro s1 h
    cases h
    exact hI
  · have hlt : s.cursorPos < (s.testText.length : Int) := by
      by_contra hc
      exact h4 (Or.inl (by omega))
    obtain ⟨m, c, hcp, hc, he⟩ := eraseBack_of_Inv s hI h6 hlt
    rw [he]
    refine ⟨by simp [Outcome.ofOption], ?_⟩
    intro s1 h
    simp only [Outcome.ofOption, Outcome.next.injEq] at h
    subst h
    exact Inv_erased s m c hI hcp hc
  · refine ⟨by simp, ?_⟩
    intro s1 h
    cases h
    exact hI
  · have hlt : s.cursorPos < (s.testText.length : Int) := by
      by_contra hc
      exact h4 (Or.inl (by omega))
    unfold charInput
    split_ifs with hp
    · have hI2 : Inv (startTimer now s) := Inv_of_core s _ (core_startTimer now s) hI
      have hc2 := core_startTimer now s
      simp only [core, Prod.mk.injEq] at hc2
      have hlt2 : (startTimer now s).cursorPos < ((startTimer now s).testText.length : Int) := by
        rw [hc2.1, hc2.2.2.1]; exact hlt
      obtain ⟨n, c, hcp, hc, he⟩ := typeChar_of_Inv (typedChar ev) _ hI2 hlt2
      rw [he]
      refine ⟨by simp [Outcome.ofOption], ?_⟩
      intro s1 h
      simp only [Outcome.ofOption, Outcome.next.injEq] at h
      subst h
      exact Inv_typed (typedChar ev) _ n c hI2 hcp hc
    · refine ⟨by simp [Outcome.ofOption], ?_⟩
      intro s1 h
      simp only [Outcome.ofOption, Outcome.next.injEq] at h
      subst h
      exact Inv_of_core s _ (core_startTimer now s) hI
  · refine ⟨by simp, ?_⟩
    intro s1 h
    cases h
    exact hI
  · refine ⟨by simp, ?_⟩
    intro s1 h
    cases h
    exact hI

theorem Inv_of_Reachable (isPrint : Nat → Bool) (timeLimit : Int) (s : State)
    (h : Reachable isPrint timeLimit s) : Inv s := by
  induction h with
  | start pick => exact Inv_setup pick zeroState
  | redraw now s _ ih => exact Inv_of_core s _ (core_redrawScreen timeLimit now s) ih
  | handle pick now ev s s1 _ hs ih => exact (handleEvent_Inv isPrint timeLimit pick now ev s ih).2 s1 hs

theorem Reachable_turn (isPrint : Nat → Bool) (timeLimit : Int) (t : Turn) (s s1 : State)
    (h : Reachable isPrint timeLimit s) (ht : turn isPrint timeLimit t s = Outcome.next s1) :
    Reachable isPrint timeLimit s1 :=
  Reachable.handle t.pick t.evAt t.ev _ s1 (Reachable.redraw t.drawAt s h) ht

/-- Every state the loop of `main` is in after some turns is a reachable one. -/
theorem Reachable_runLoop (isPrint : Nat → Bool) (timeLimit : Int) (ts : List Turn)
    (s s1 : State) (h : Reachable isPrint timeLimit s)
    (hr : runLoop isPrint timeLimit ts s = Outcome.next s1) : Reachable isPrint timeLimit s1 := by
  induction ts generalizing s with
  | nil =>
    simp only [runLoop, Outcome.next.injEq] at hr
    subst hr
    exact h
  | cons t rest ih =>
    simp only [runLoop] at hr
    cases ht : turn isPrint timeLimit t s with
    | quit => rw [ht] at hr; cases hr
    | fault => rw [ht] at hr; cases hr
    | next s2 =>
      rw [ht] at hr
      exact ih s2 (Reachable_turn isPrint timeLimit t s s2 h ht) hr

theorem countP_eq_one_of_unique (p : charState → Bool) (l : List charState) (n : Nat)
    (hn : n < l.length) (h : ∀ i c, l[i]? = some c → (p c = true ↔ i = n)) :
    l.countP p = 1 := by
  induction l generalizing n with
  | nil => simp at hn
  | cons a t ih =>
    cases n with
    | zero =>
      have ha : p a = true := (h 0 a (by simp)).2 rfl
      have ht : t.countP p = 0 := by
        rw [List.countP_eq_zero]
        intro c hc
        obtain ⟨i, hi⟩ := List.mem_iff_getElem?.1 hc
        have := h (i + 1) c (by simpa using hi)
        intro hpc
        have := this.1 hpc
        omega
      rw [List.countP_cons, ht, if_pos ha]
    | succ k =>
      have ha : ¬ p a = true := fun hpa => by
        have := (h 0 a (by simp)).1 hpa
        omega
      have ht : t.countP p = 1 := by
        apply ih k (by simpa using hn)
        intro i c hc
        have := h (i + 1) c (by simpa using hc)
        rw [this]
        omega
      rw [List.countP_cons, ht, if_neg ha]

/-! ## Character input and backspace, turn by turn -/

theorem core_typedState (tc n : Nat) (c : charState) (s s0 : State) (h : core s = core s0) :
    core (typedState tc n c s) = core (typedState tc n c s0) := by
  simp only [core, Prod.mk.injEq] at h
  simp [core, typedState, h]

theorem core_erasedState (m : Nat) (c : charState) (s s0 : State) (h : core s = core s0) :
    core (erasedState m c s) = core (erasedState m c s0) := by
  simp only [core, Prod.mk.injEq] at h
  simp [core, erasedState, h]

theorem not_finished_of_core (timeLimit : Int) (s : State) (h : ¬ finished timeLimit s) :
    s.cursorPos < (s.testText.length : Int) ∧ ¬ timeUp timeLimit s := by
  unfold finished at h
  push_neg at h
  exact ⟨h.1, h.2⟩

theorem handleEvent_char (isPrint : Nat → Bool) (timeLimit : Int) (pick : List Nat) (now : Int)
    (ev : Event) (s : State) (hlive : ¬ finished timeLimit s) (hev : CharInputEv ev) :
    handleEvent isPrint timeLimit pick now ev s
      = Outcome.ofOption (charInput isPrint now ev s) := by
  obtain ⟨h1, h2, h3, h4, h5, h6⟩ := hev
  have ht := (not_finished_of_core timeLimit s hlive).2
  unfold handleEvent
  rw [if_pos h1, if_neg (by tauto), if_neg (by tauto), if_neg hlive, if_neg (by tauto),
    if_pos ⟨h6, ht⟩]

theorem handleEvent_backspace (isPrint : Nat → Bool) (timeLimit : Int) (pick : List Nat)
    (now : Int) (ev : Event) (s : State) (hlive : ¬ finished timeLimit s) (hev : BackspaceEv ev) :
    handleEvent isPrint timeLimit pick now ev s
      = if 0 < s.cursorPos then Outcome.ofOption (eraseBack s) else Outcome.next s := by
  obtain ⟨h1, h2⟩ := hev
  have ht := (not_finished_of_core timeLimit s hlive).2
  have h3 : ¬ (ev.key = KeyEsc ∨ ev.key = KeyCtrlC) := by
    rcases h2 with h | h <;> rw [h] <;> decide
  unfold handleEvent
  rw [if_pos h1, if_neg h3, if_neg (by tauto), if_neg hlive, if_pos ⟨h2, ht⟩]

theorem turn_char (isPrint : Nat → Bool) (timeLimit : Int) (t : Turn) (s : State) (hI : Inv s)
    (hlive : ¬ finished timeLimit (redrawScreen timeLimit t.drawAt s))
    (hev : CharInputEv t.ev) (hp : isPrint (typedChar t.ev) = true) :
    ∃ (n : Nat) (c : charState) (s1 : State), s.cursorPos = (n : Int) ∧ s.states[n]? = some c ∧
      turn isPrint timeLimit t s = Outcome.next s1 ∧
      core s1 = core (typedState (typedChar t.ev) n c s) := by
  have hc1 := core_redrawScreen timeLimit t.drawAt s
  have hc2 := core_startTimer t.evAt (redrawScreen timeLimit t.drawAt s)
  have hc := hc2.trans hc1
  have hI2 : Inv (startTimer t.evAt (redrawScreen timeLimit t.drawAt s)) :=
    Inv_of_core s _ hc hI
  have hlt := (not_finished_of_core timeLimit _ hlive).1
  have hcc := hc
  simp only [core, Prod.mk.injEq] at hcc hc1
  rw [hc1.1, hc1.2.2.1, ← hcc.1, ← hcc.2.2.1] at hlt
  obtain ⟨n, c, hcp, hsl, he⟩ := typeChar_of_Inv (typedChar t.ev) _ hI2 hlt
  refine ⟨n, c, _, ?_, ?_, ?_, core_typedState (typedChar t.ev) n c _ s hc⟩
  · rw [← hcc.2.2.1]; exact hcp
  · rw [← hcc.2.1]; exact hsl
  · unfold turn
    rw [handleEvent_char isPrint timeLimit t.pick t.evAt t.ev _ hlive hev]
    unfold charInput
    rw [if_pos hp, he]
    rfl

theorem turn_backspace (isPrint : Nat → Bool) (timeLimit : Int) (t : Turn) (s : State)
    (hI : Inv s) (hlive : ¬ finished timeLimit (redrawScreen timeLimit t.drawAt s))
    (hev : BackspaceEv t.ev) (h0 : 0 < s.cursorPos) :
    ∃ (m : Nat) (c : charState) (s1 : State), s.cursorPos = ((m + 1 : Nat) : Int) ∧
      s.states[m]? = some c ∧ turn isPrint timeLimit t s = Outcome.next s1 ∧
      core s1 = core (erasedState m c s) := by
  have hc := core_redrawScreen timeLimit t.drawAt s
  have hI2 : Inv (redrawScreen timeLimit t.drawAt s) := Inv_of_core s _ hc hI
  have hlt := (not_finished_of_core timeLimit _ hlive).1
  have hcc := hc
  simp only [core, Prod.mk.injEq] at hcc
  have h02 : 0 < (redrawScreen timeLimit t.drawAt s).cursorPos := by rw [hcc.2.2.1]; exact h0
  obtain ⟨m, c, hcp, hsl, he⟩ := eraseBack_of_Inv _ hI2 h02 hlt
  refine ⟨m, c, _, ?_, ?_, ?_, core_erasedState m c _ s hc⟩
  · rw [← hcc.2.2.1]; exact hcp
  · rw [← hcc.2.1]; exact hsl
  · unfold turn
    rw [handleEvent_backspace isPrint timeLimit t.pick t.evAt t.ev _ hlive hev, if_pos h02, he]
    rfl

theorem erased_typed_states (tc n : Nat) (l : List charState) (c : charState)
    (hS : SlotsOk n l) (hc : l[n]? = some c) : erasedStates n (typedStates tc n l) = l := by
  apply List.ext_getElem?
  intro j
  simp only [erasedStates, typedStates, getElem?_modAt]
  by_cases e1 : n = j
  · subst e1
    have e2 : ¬ (n + 1 = n) := by omega
    obtain ⟨h1, h2, h3⟩ := hS n c hc
    simp only [e2, if_true, if_false, hc, Option.map_some', Option.some.injEq]
    simp at h1 h2 h3
    cases c
    simp_all [unmark, markTyped]
  · by_cases e2 : n + 1 = j
    · subst e2
      simp only [e1, if_true, if_false]
      cases hj : l[n + 1]? with
      | none => rfl
      | some d =>
        have h1 := (hS (n + 1) d hj).1
        simp at h1
        cases d
        simp_all
    · simp only [e1, e2, if_false]

/-- Typing a character and then erasing it gives back the slots, the cursor
and the two counters. -/
theorem core_erased_typed (tc n : Nat) (c : charState) (s : State) (hI : Inv s)
    (hcp : s.cursorPos = (n : Int)) (hc : s.states[n]? = some c) :
    core (erasedState n (markTyped tc c) (typedState tc n c s)) = core s := by
  obtain ⟨-, k, hk, -, -, hS, -⟩ := hI
  have hkn : k = n := by
    have : (k : Int) = (n : Int) := hk.symm.trans hcp
    exact_mod_cast this
  subst hkn
  simp only [core, erasedState, typedState, Prod.mk.injEq, true_and]
  refine ⟨erased_typed_states tc k s.states c hS hc, hcp.symm, by ring, ?_⟩
  by_cases h : tc = c.char <;> simp [markTyped, h]

theorem runLoop_append (isPrint : Nat → Bool) (timeLimit : Int) (xs ys : List Turn) (s : State) :
    runLoop isPrint timeLimit (xs ++ ys) s =
      match runLoop isPrint timeLimit xs s with
      | Outcome.next s1 => runLoop isPrint timeLimit ys s1
      | o => o := by
  induction xs generalizing s with
  | nil => rfl
  | cons t rest ih =>
    simp only [List.cons_append, runLoop]
    cases turn isPrint timeLimit t s with
    | quit => rfl
    | fault => rfl
    | next s2 => exact ih s2

theorem allLive_append (isPrint : Nat → Bool) (timeLimit : Int) (xs ys : List Turn) (s : State)
    (h : allLive isPrint timeLimit (xs ++ ys) s = true) :
    allLive isPrint timeLimit xs s = true ∧
      ∀ s1, runLoop isPrint timeLimit xs s = Outcome.next s1 →
        allLive isPrint timeLimit ys s1 = true := by
  induction xs generalizing s with
  | nil =>
    refine ⟨rfl, ?_⟩
    intro s1 h1
    simp only [runLoop, Outcome.next.injEq] at h1
    subst h1
    exact h
  | cons t rest ih =>
    simp only [List.cons_append, allLive, Bool.and_eq_true] at h ⊢
    simp only [runLoop]
    cases ht : turn isPrint timeLimit t s with
    | quit => exact ⟨⟨h.1, rfl⟩, by intro s1 h1; cases h1⟩
    | fault => exact ⟨⟨h.1, rfl⟩, by intro s1 h1; cases h1⟩
    | next s2 =>
      rw [ht] at h
      obtain ⟨h2, h3⟩ := ih s2 h.2
      exact ⟨⟨h.1, h2⟩, h3⟩

/-- The inverse law on the variables of the invariant: printable characters
typed and then as many backspaces, with no turn finding the test over. -/
theorem inverse_law_core (isPrint : Nat → Bool) (timeLimit : Int) (cs : List Turn) :
    ∀ (bs : List Turn) (s : State), Inv s → cs.length = bs.length →
      (∀ t ∈ cs, CharInputEv t.ev ∧ isPrint (typedChar t.ev) = true) →
      (∀ t ∈ bs, BackspaceEv t.ev) →
      allLive isPrint timeLimit (cs ++ bs) s = true →
      ∃ s1, runLoop isPrint timeLimit (cs ++ bs) s = Outcome.next s1 ∧ core s1 = core s := by
  induction cs with
  | nil =>
    intro bs s _ hlen _ _ _
    have : bs = [] := List.length_eq_zero.1 hlen.symm
    subst this
    exact ⟨s, rfl, rfl⟩
  | cons t cs ih =>
    intro bs s hI hlen hcs hbs hlive
    have hne : bs ≠ [] := by
      intro h
      subst h
      simp at hlen
    obtain ⟨bs1, b, rfl⟩ : ∃ bs1 b, bs = bs1 ++ [b] :=
      ⟨bs.dropLast, bs.getLast hne, (List.dropLast_append_getLast hne).symm⟩
    have hlen1 : cs.length = bs1.length := by
      simp at hlen
      omega
    -- the first turn types a character
    have hlive1 : ¬ finished timeLimit (redrawScreen timeLimit t.drawAt s) := by
      simp only [List.cons_append, allLive, Bool.and_eq_true, decide_eq_true_eq] at hlive
      exact hlive.1
    obtain ⟨hev, hp⟩ := hcs t (List.mem_cons_self _ _)
    obtain ⟨n, c, s1, hcp, hsl, hturn, hcore1⟩ := turn_char isPrint timeLimit t s hI hlive1 hev hp
    have hI1 : Inv s1 := by
      have := (handleEvent_Inv isPrint timeLimit t.pick t.evAt t.ev _
        (Inv_of_core s _ (core_redrawScreen timeLimit t.drawAt s) hI)).2 s1 hturn
      exact this
    -- the turns in between leave the variables as they are after the first
    have hlive2 : allLive isPrint timeLimit ((cs ++ bs1) ++ [b]) s1 = true := by
      simp only [List.cons_append, allLive, Bool.and_eq_true, hturn] at hlive
      rw [List.append_assoc]
      exact hlive.2
    obtain ⟨hlive3, hlive4⟩ := allLive_append isPrint timeLimit (cs ++ bs1) [b] s1 hlive2
    obtain ⟨s2, hrun2, hcore2⟩ := ih bs1 s1 hI1 hlen1
      (fun u hu => hcs u (List.mem_cons_of_mem _ hu))
      (fun u hu => hbs u (List.mem_append_left _ hu)) hlive3
    have hI2 : Inv s2 := Inv_of_core s1 s2 hcore2 hI1
    -- the last turn is the backspace that undoes the first
    have hliveb : ¬ finished timeLimit (redrawScreen timeLimit b.drawAt s2) := by
      have := hlive4 s2 hrun2
      simp only [allLive, Bool.and_eq_true, decide_eq_true_eq] at this
      exact this.1
    have hc12 := hcore2.trans hcore1
    have hcc := hc12
    simp only [core, typedState, Prod.mk.injEq] at hcc
    have h0 : 0 < s2.cursorPos := by
      rw [hcc.2.2.1]
      positivity
    obtain ⟨m, c2, s3, hcp2, hsl2, hturnb, hcore3⟩ :=
      turn_backspace isPrint timeLimit b s2 hI2 hliveb
        (hbs b (List.mem_append_right _ (List.mem_singleton_self b))) h0
    have hmn : m = n := by
      have : ((m + 1 : Nat) : Int) = ((n + 1 : Nat) : Int) := hcp2.symm.trans hcc.2.2.1
      have : m + 1 = n + 1 := by exact_mod_cast this
      omega
    subst hmn
    have hc2 : c2 = markTyped (typedChar t.ev) c := by
      rw [hcc.2.1] at hsl2
      simp only [typedStates, getElem?_modAt] at hsl2
      have e2 : ¬ (m + 1 = m) := by omega
      simp only [e2, if_true, if_false, hsl, Option.map_some', Option.some.injEq] at hsl2
      exact hsl2.symm
    subst hc2
    refine ⟨s3, ?_, ?_⟩
    · have : t :: cs ++ (bs1 ++ [b]) = [t] ++ ((cs ++ bs1) ++ [b]) := by simp
      have h1 : runLoop isPrint timeLimit [t] s = Outcome.next s1 := by
        simp only [runLoop, hturn]
      have h3 : runLoop isPrint timeLimit [b] s2 = Outcome.next s3 := by
        simp only [runLoop, hturnb]
      rw [this, runLoop_append, h1]
      simp only
      rw [runLoop_append, hrun2]
      exact h3
    · rw [hcore3, core_erasedState m _ s2 _ hc12]
      exact core_erased_typed (typedChar t.ev) m c s hI hcp hsl

theorem runLoop_ne_fault (isPrint : Nat → Bool) (timeLimit : Int) (ts : List Turn) (s : State)
    (hI : Inv s) : runLoop isPrint timeLimit ts s ≠ Outcome.fault := by
  induction ts generalizing s with
  | nil => simp [runLoop]
  | cons t rest ih =>
    have hI1 : Inv (redrawScreen timeLimit t.drawAt s) :=
      Inv_of_core s _ (core_redrawScreen timeLimit t.drawAt s) hI
    have hh := handleEvent_Inv isPrint timeLimit t.pick t.evAt t.ev _ hI1
    simp only [runLoop]
    cases ht : turn isPrint timeLimit t s with
    | quit => simp
    | fault => exact absurd ht hh.1
    | next s2 => exact ih s2 (hh.2 s2 ht)

/-- Once the guard finds the test over, a key event that is neither a quit nor
`r` / `R` changes nothing. -/
theorem handleEvent_finished (isPrint : Nat → Bool) (timeLimit : Int) (pick : List Nat)
    (now : Int) (ev : Event) (s : State) (hfin : finished timeLimit s)
    (hq : ev.key ≠ KeyEsc ∧ ev.key ≠ KeyCtrlC) (hr : ev.ch ≠ 114 ∧ ev.ch ≠ 82) :
    handleEvent isPrint timeLimit pick now ev s = Outcome.next s := by
  unfold handleEvent
  by_cases hk : ev.type = EventType.EventKey
  · rw [if_pos hk, if_neg (by tauto), if_neg (by tauto), if_pos hfin]
  · rw [if_neg hk]

/-! ## Worked traces on the passage "cat" -/

theorem afterC_run :
    runLoop isPrintLatin1 60 [keyTurn 0 1 (charKey 99)] (setup cat zeroState)
      = Outcome.next afterC := by decide

theorem afterC_reachable : Reachable isPrintLatin1 60 afterC :=
  Reachable_runLoop isPrintLatin1 60 _ _ _ (Reachable.start cat) afterC_run

/-! ## Passages of ASCII bytes -/

theorem rangeFrom_ascii (text : List Nat) (idx : Nat) (h : ∀ b ∈ text, b < 128) :
    rangeFrom idx 0 text = List.enumFrom idx text := by
  induction text generalizing idx with
  | nil => rfl
  | cons b rest ih =>
    have hb : b < 128 := h b (List.mem_cons_self _ _)
    have hd : decodeRune (b :: rest) = (b, 1) := by
      simp [decodeRune, hb]
    simp only [rangeFrom, hd, List.enumFrom_cons]
    rw [ih (idx + 1) (fun c hc => h c (List.mem_cons_of_mem _ hc))]

theorem take_succ_set (st : List charState) (k : Nat) (x : charState) (hk : k < st.length) :
    (st.set k x).take (k + 1) = st.take k ++ [x] := by
  apply List.ext_getElem?
  intro j
  simp only [List.getElem?_take, List.getElem?_set, List.getElem?_append, List.length_take]
  rw [Nat.min_eq_left (Nat.le_of_lt hk)]
  by_cases h1 : j < k
  · have : ¬ k = j := by omega
    have h2 : j < k + 1 := by omega
    simp [h1, h2, this]
  · by_cases h2 : j = k
    · subst h2
      simp [hk]
    · have h3 : ¬ j < k + 1 := by omega
      have h4 : j - k ≠ 0 := by omega
      simp [h1, h3]
      omega

theorem foldl_set_enumFrom (rest : List Nat) (k : Nat) (st : List charState)
    (h : st.length = k + rest.length) :
    (List.enumFrom k rest).foldl (fun st p => st.set p.1 { char := p.2 }) st
      = st.take k ++ rest.map (fun b => { char := b }) := by
  induction rest generalizing k st with
  | nil =>
    simp only [List.enumFrom_nil, List.foldl_nil, List.map_nil, List.append_nil]
    rw [List.take_of_length_le]
    simp at h
    omega
  | cons b r ih =>
    simp only [List.enumFrom_cons, List.foldl_cons, List.map_cons]
    rw [ih (k + 1) _ (by simp at h ⊢; omega), take_succ_set st k _ (by simp at h; omega)]
    simp

/-- For a passage of ASCII bytes `setup` makes the slots the claim C7 describes:
one per code point, slot `i` holding the `i`-th one, none typed or correct. -/
theorem setup_ascii (text : List Nat) (s : State) (h : ∀ b ∈ text, b < 128) :
    runeCount text = text.length ∧
    (setup text s).states.length = runeCount text ∧
    (setup text s).states.map (fun c => c.char) = (rangeString text).map (fun p => p.2) ∧
    (setup text s).states.map (fun c => c.char) = text := by
  have hr : rangeString text = List.enumFrom 0 text := rangeFrom_ascii text 0 h
  have hf : freshStates text = text.map (fun b => { char := b }) := by
    unfold freshStates
    rw [hr, foldl_set_enumFrom text 0 _ (by simp)]
    simp
  have hm : ∀ l : List charState, (markFirst l).map (fun c => c.char) = l.map (fun c => c.char) := by
    intro l
    cases l <;> rfl
  have hc : (setup text s).states.map (fun c => c.char) = text := by
    show (markFirst (freshStates text)).map (fun c => c.char) = text
    rw [hm, hf, List.map_map]
    simp [Function.comp_def]
  refine ⟨by simp [runeCount, hr], ?_, ?_, hc⟩
  · show (markFirst (freshStates text)).length = runeCount text
    simp [length_markFirst, length_freshStates, runeCount, hr]
  · rw [hc, hr]
    simp [List.enumFrom_map_snd]

/-! ## The claims -/

/-- C1: in every state reachable from `setup` by key events handled by the main
loop, `0 <= errors <= typedChars <= cursorPos <= len(testText)`. -/
theorem C1_counters_ordered (isPrint : Nat → Bool) (timeLimit : Int) (s : State)
    (h : Reachable isPrint timeLimit s) :
    0 ≤ s.errors ∧ s.errors ≤ s.typedChars ∧ s.typedChars ≤ s.cursorPos ∧
      s.cursorPos ≤ (s.testText.length : Int) := by
  obtain ⟨-, n, hcp, hn, htc, -, herr, hty⟩ := Inv_of_Reachable isPrint timeLimit s h
  have hle : s.states.countP wrong ≤ s.states.countP (fun c => c.typed) := by
    apply List.countP_mono_left
    intro c _ hw
    simp only [wrong, Bool.and_eq_true] at hw
    exact hw.1
  rw [herr, htc, hcp]
  refine ⟨by positivity, ?_, le_refl _, ?_⟩
  · exact_mod_cast (hle.trans (le_of_eq hty))
  · exact_mod_cast hn

theorem C1_counters_ordered_witness :
    0 ≤ afterC.errors ∧ afterC.errors ≤ afterC.typedChars ∧
      afterC.typedChars ≤ afterC.cursorPos ∧ afterC.cursorPos ≤ (afterC.testText.length : Int) :=
  C1_counters_ordered isPrintLatin1 60 afterC afterC_reachable

/-- C2: in every reachable state, if `cursorPos < len(testText)` then exactly one
slot has `isCursor == true` and it is the slot at index `cursorPos`; if
`cursorPos == len(testText)` then no slot has `isCursor == true`. -/
theorem C2_cursor_mark (isPrint : Nat → Bool) (timeLimit : Int) (s : State)
    (h : Reachable isPrint timeLimit s) :
    (s.cursorPos < (s.testText.length : Int) →
      s.states.countP (fun c => c.isCursor) = 1 ∧
      ∃ n : Nat, (n : Int) = s.cursorPos ∧
        (∃ c, s.states[n]? = some c ∧ c.isCursor = true) ∧
        ∀ i c, s.states[i]? = some c → c.isCursor = true → i = n) ∧
    (s.cursorPos = (s.testText.length : Int) → ∀ c ∈ s.states, c.isCursor = false) := by
  obtain ⟨hlen, n, hcp, hn, -, hS, -⟩ := Inv_of_Reachable isPrint timeLimit s h
  constructor
  · intro hlt
    rw [hcp] at hlt
    have hnl : n < s.states.length := by
      have : n < s.testText.length := by exact_mod_cast hlt
      omega
    have hiff : ∀ i c, s.states[i]? = some c → (c.isCursor = true ↔ i = n) := by
      intro i c hc
      rw [(hS i c hc).1]
      simp
    refine ⟨countP_eq_one_of_unique _ _ n hnl hiff, n, hcp.symm, ?_, ?_⟩
    · exact ⟨s.states[n], List.getElem?_eq_getElem hnl,
        (hiff n _ (List.getElem?_eq_getElem hnl)).2 rfl⟩
    · intro i c hc hcur
      exact (hiff i c hc).1 hcur
  · intro heq c hc
    obtain ⟨i, hi⟩ := List.mem_iff_getElem?.1 hc
    have hil : i < s.states.length := lt_length_of_getElem? _ _ _ hi
    have hne : i ≠ n := by
      rw [hcp] at heq
      have : n = s.testText.length := by exact_mod_cast heq
      omega
    rw [(hS i c hi).1]
    simp [hne]

theorem C2_cursor_mark_witness :
    afterC.states.countP (fun c => c.isCursor) = 1 ∧
      ∃ n : Nat, (n : Int) = afterC.cursorPos ∧
        (∃ c, afterC.states[n]? = some c ∧ c.isCursor = true) ∧
        ∀ i c, afterC.states[i]? = some c → c.isCursor = true → i = n :=
  (C2_cursor_mark isPrintLatin1 60 afterC afterC_reachable).1 (by decide)

/-- C3, as stated, fails: from the reachable state `afterC` (cursor on slot 1,
test not over) one character-input event that is not printable and then one
backspace, no turn finding the test over, end with `cursorPos == 0` and
`typedChars == 0` instead of 1 and 1. -/
theorem C3_counterexample :
    Reachable isPrintLatin1 60 afterC ∧ ¬ finished 60 afterC ∧
    CharInputEv (charKey 160) ∧ BackspaceEv backspaceKey ∧
    allLive isPrintLatin1 60 ([keyTurn 1 2 (charKey 160)] ++ [keyTurn 2 3 backspaceKey]) afterC
      = true ∧
    runLoop isPrintLatin1 60 ([keyTurn 1 2 (charKey 160)] ++ [keyTurn 2 3 backspaceKey]) afterC
      = Outcome.next afterNbspBack ∧
    afterNbspBack.cursorPos ≠ afterC.cursorPos ∧ afterNbspBack.typedChars ≠ afterC.typedChars ∧
    afterNbspBack.states ≠ afterC.states :=
  ⟨afterC_reachable, by decide, by decide, by decide, by decide, by decide, by decide, by decide,
    by decide⟩

/-- C3, amended: from every reachable state, `n` character-input events that are
all printable, followed by `n` backspace events, with no turn finding the test
over, leave `states`, `cursorPos`, `typedChars` and `errors` as they were. -/
theorem C3_inverse_law (isPrint : Nat → Bool) (timeLimit : Int) (s : State) (cs bs : List Turn)
    (hR : Reachable isPrint timeLimit s) (hlen : cs.length = bs.length)
    (hcs : ∀ t ∈ cs, CharInputEv t.ev ∧ isPrint (typedChar t.ev) = true)
    (hbs : ∀ t ∈ bs, BackspaceEv t.ev)
    (hlive : allLive isPrint timeLimit (cs ++ bs) s = true) :
    ∃ s1, runLoop isPrint timeLimit (cs ++ bs) s = Outcome.next s1 ∧
      s1.states = s.states ∧ s1.cursorPos = s.cursorPos ∧ s1.typedChars = s.typedChars ∧
      s1.errors = s.errors := by
  obtain ⟨s1, h1, h2⟩ := inverse_law_core isPrint timeLimit cs bs s
    (Inv_of_Reachable isPrint timeLimit s hR) hlen hcs hbs hlive
  simp only [core, Prod.mk.injEq] at h2
  exact ⟨s1, h1, h2.2.1, h2.2.2.1, h2.2.2.2.1, h2.2.2.2.2⟩

theorem C3_inverse_law_witness :
    ∃ s1, runLoop isPrintLatin1 60
        ([keyTurn 0 1 (charKey 120), keyTurn 1 2 (charKey 97)] ++
          [keyTurn 2 3 backspaceKey, keyTurn 3 4 backspaceKey]) (setup cat zeroState)
        = Outcome.next s1 ∧
      s1.states = (setup cat zeroState).states ∧ s1.cursorPos = (setup cat zeroState).cursorPos ∧
      s1.typedChars = (setup cat zeroState).typedChars ∧
      s1.errors = (setup cat zeroState).errors :=
  C3_inverse_law isPrintLatin1 60 (setup cat zeroState)
    [keyTurn 0 1 (charKey 120), keyTurn 1 2 (charKey 97)]
    [keyTurn 2 3 backspaceKey, keyTurn 3 4 backspaceKey]
    (Reachable.start cat) (by decide) (by decide) (by decide) (by decide)

/-- C4 fails on the code: `c` is typed on "cat" at second 1, the screen is drawn,
and `a` arrives at second 101, when 100 s >= 60 s have gone by since `startTime`;
the event is accepted (`cursorPos` goes from 1 to 2), because the guard reads
the `elapsedTime` sampled by the last `redrawScreen`. -/
theorem C4_late_key_accepted :
    runLoop isPrintLatin1 60 [keyTurn 0 1 (charKey 99)] (setup cat zeroState)
      = Outcome.next afterC ∧
    (60 : Int) * Second ≤ 101 * Second - afterC.startTime ∧
    turn isPrintLatin1 60 (keyTurn 1 101 (charKey 97)) afterC = Outcome.next lateA ∧
    afterC.cursorPos = 1 ∧ lateA.cursorPos = 2 ∧ lateA.typedChars = 2 ∧
    lateA.states ≠ afterC.states := by
  refine ⟨by decide, by decide, by decide, by decide, by decide, by decide, by decide⟩

/-- C5 fails on the code: "cat" is typed in three seconds; the first call of
`redrawScreen` that finds the test over, at second 4, shows 12 WPM; after one
more key the call at second 7 shows 6 WPM. -/
theorem C5_final_wpm_changes :
    runLoop isPrintLatin1 60
      [keyTurn 0 1 (charKey 99), keyTurn 1 2 (charKey 97), keyTurn 2 3 (charKey 116)]
      (setup cat zeroState) = Outcome.next catDone ∧
    catDone.testCompleted = false ∧
    finished 60 (redrawScreen 60 (4 * Second) catDone) ∧
    shownMetrics 60 (4 * Second) catDone = (12, 100) ∧
    turn isPrintLatin1 60 (keyTurn 4 5 (charKey 120)) catDone = Outcome.next catDoneSeen ∧
    shownMetrics 60 (7 * Second) catDoneSeen = (6, 100) := by
  refine ⟨by decide, by decide, by decide, ?_, by decide, ?_⟩
  · simp [shownMetrics, wpm, accuracy, sampleElapsed, catDone, Second, Minutes, Seconds]
    norm_num
  · simp [shownMetrics, wpm, accuracy, sampleElapsed, catDoneSeen, catDone, Second, Minutes,
      Seconds]
    norm_num

/-- C6: for a time limit above zero (in seconds; `elapsedTime` counts
nanoseconds), the WPM `redrawScreen` computes is 0 if the test has not started
or no time has elapsed; otherwise it is `((typedChars - errors) / 5)` divided by
the elapsed minutes `elapsedTime / (60 * 10^9)` while the elapsed time is at
most the limit, and `((typedChars - errors) / 5) / (timeLimit / 60)` beyond the
limit, where it no longer depends on the elapsed time. Over exact rationals; an
elapsed time measured by `time.Since` is not negative. -/
theorem C6_wpm_formula (timeLimit : Int) (s : State) (hL : 0 < timeLimit) :
    ((s.testStarted = false ∨ s.elapsedTime = 0) → wpm timeLimit s = 0) ∧
    (s.testStarted = true → 0 < s.elapsedTime → s.elapsedTime ≤ timeLimit * 1000000000 →
      wpm timeLimit s
        = (((s.typedChars - s.errors : Int) : ℚ) / 5)
            / ((s.elapsedTime : ℚ) / (60 * 1000000000))) ∧
    (s.testStarted = true → timeLimit * 1000000000 < s.elapsedTime →
      wpm timeLimit s
        = (((s.typedChars - s.errors : Int) : ℚ) / 5) / ((timeLimit : ℚ) / 60)) ∧
    (∀ e : Int, s.testStarted = true → timeLimit * 1000000000 < s.elapsedTime →
      timeLimit * 1000000000 < e →
      wpm timeLimit { s with elapsedTime := e } = wpm timeLimit s) := by
  have hsec : ∀ e : Int, ((timeLimit : ℚ) < Seconds e ↔ timeLimit * 1000000000 < e) := by
    intro e
    unfold Seconds
    rw [lt_div_iff₀ (by norm_num)]
    exact_mod_cast Iff.rfl
  have hmin : ∀ e : Int, (0 < Minutes e ↔ 0 < e) := by
    intro e
    unfold Minutes
    rw [div_pos_iff_of_pos_right (by norm_num)]
    exact_mod_cast Iff.rfl
  have hpos : ∀ e : Int, timeLimit * 1000000000 < e → 0 < e := by
    intro e he
    have : 0 < timeLimit * 1000000000 := Int.mul_pos hL (by decide)
    omega
  have beyond : ∀ s1 : State, s1.testStarted = true →
      timeLimit * 1000000000 < s1.elapsedTime →
      wpm timeLimit s1
        = (((s1.typedChars - s1.errors : Int) : ℚ) / 5) / ((timeLimit : ℚ) / 60) := by
    intro s1 hs he
    unfold wpm
    rw [if_pos hs, if_pos ((hmin _).2 (hpos _ he)), if_pos ((hsec _).2 he)]
  refine ⟨?_, ?_, beyond s, ?_⟩
  · intro h
    unfold wpm
    rcases h with h | h
    · simp [h]
    · have : ¬ (0 < Minutes s.elapsedTime) := by
        rw [hmin, h]
        decide
      simp [this]
  · intro hs h0 hle
    unfold wpm
    rw [if_pos hs, if_pos ((hmin _).2 h0), if_neg (fun h => absurd ((hsec _).1 h) (by omega))]
    rfl
  · intro e hs he1 he2
    rw [beyond s hs he1, beyond { s with elapsedTime := e } hs he2]

theorem C6_wpm_formula_witness :
    wpm 60 (setup cat zeroState) = 0 ∧
    wpm 60 mid30 = 16 / 5 ∧
    wpm 60 late65 = 8 / 5 ∧
    wpm 60 { late65 with elapsedTime := 70000000000 } = wpm 60 late65 := by
  refine ⟨(C6_wpm_formula 60 (setup cat zeroState) (by decide)).1 (Or.inl rfl), ?_, ?_,
    (C6_wpm_formula 60 late65 (by decide)).2.2.2 70000000000 rfl (by decide) (by decide)⟩
  · rw [(C6_wpm_formula 60 mid30 (by decide)).2.1 rfl (by decide) (by decide)]
    norm_num [mid30, zeroState]
  · rw [(C6_wpm_formula 60 late65 (by decide)).2.2.1 rfl (by decide)]
    norm_num [late65, zeroState]

/-- C7 fails on the code: for the passage "é" (one code point, the two bytes C3 A9)
`setup` makes two slots, the second holding the rune 0, where the claim has one
slot per code point. -/
theorem C7_two_slots_for_one_rune :
    runeCount [0xC3, 0xA9] = 1 ∧
    (setup [0xC3, 0xA9] zeroState).states
      = [{ char := 233, isCursor := true }, { char := 0 }] ∧
    (setup [0xC3, 0xA9] zeroState).states.length ≠ runeCount [0xC3, 0xA9] := by
  refine ⟨by decide, by decide, by decide⟩

/-- C8, as stated, fails: in the state `setup` leaves on "cat" (test not started,
not over) the character event U+00A0, which is not printable, sets
`testStarted` and `startTime`. -/
theorem C8_counterexample :
    Reachable isPrintLatin1 60 (setup cat zeroState) ∧
    ¬ finished 60 (redrawScreen 60 0 (setup cat zeroState)) ∧
    CharInputEv (charKey 160) ∧ isPrintLatin1 (typedChar (charKey 160)) = false ∧
    turn isPrintLatin1 60 (keyTurn 0 1 (charKey 160)) (setup cat zeroState)
      = Outcome.next idleNbsp ∧
    idleNbsp.testStarted ≠ (setup cat zeroState).testStarted ∧
    idleNbsp.startTime ≠ (setup cat zeroState).startTime :=
  ⟨Reachable.start cat, by decide, by decide, by decide, by decide, by decide, by decide⟩

/-- C8, amended: in every state in which the test is not over, a character event
whose rune is not printable leaves `testText`, `states`, `cursorPos`,
`typedChars` and `errors` unchanged; once the test has started it changes
nothing at all; before the first input it starts the timer (`testStarted`
becomes true and `startTime` the current time). -/
theorem C8_nonprintable_ignored (isPrint : Nat → Bool) (timeLimit : Int) (pick : List Nat)
    (now : Int) (ev : Event) (s : State) (hlive : ¬ finished timeLimit s)
    (hev : CharInputEv ev) (hnp : isPrint (typedChar ev) = false) :
    ∃ s1, handleEvent isPrint timeLimit pick now ev s = Outcome.next s1 ∧
      s1.testText = s.testText ∧ s1.states = s.states ∧ s1.cursorPos = s.cursorPos ∧
      s1.typedChars = s.typedChars ∧ s1.errors = s.errors ∧
      s1.elapsedTime = s.elapsedTime ∧ s1.testCompleted = s.testCompleted ∧
      (s.testStarted = true → s1 = s) ∧
      (s.testStarted = false → s1.testStarted = true ∧ s1.startTime = now) := by
  refine ⟨startTimer now s, ?_, ?_⟩
  · rw [handleEvent_char isPrint timeLimit pick now ev s hlive hev]
    unfold charInput
    rw [if_neg (by simp [hnp])]
    rfl
  · unfold startTimer
    cases h : s.testStarted <;> simp

theorem C8_nonprintable_ignored_witness :
    ∃ s1, handleEvent isPrintLatin1 60 cat (2 * Second) (charKey 160) afterC = Outcome.next s1 ∧
      s1.testText = afterC.testText ∧ s1.states = afterC.states ∧
      s1.cursorPos = afterC.cursorPos ∧
      s1.typedChars = afterC.typedChars ∧ s1.errors = afterC.errors ∧
      s1.elapsedTime = afterC.elapsedTime ∧ s1.testCompleted = afterC.testCompleted ∧
      (afterC.testStarted = true → s1 = afterC) ∧
      (afterC.testStarted = false → s1.testStarted = true ∧ s1.startTime = 2 * Second) :=
  C8_nonprintable_ignored isPrintLatin1 60 cat (2 * Second) (charKey 160) afterC
    (by decide) (by decide) (by decide)

/-- C9, as stated, fails: in the reachable state `afterC` (`cursorPos == 1` of 3,
time remaining) the key `r` changes the state: it is typed on slot 1, wrongly,
and `cursorPos`, `typedChars` and `errors` become 2, 2 and 1. -/
theorem C9_counterexample :
    Reachable isPrintLatin1 60 afterC ∧
    ¬ finished 60 (redrawScreen 60 (1 * Second) afterC) ∧
    turn isPrintLatin1 60 (keyTurn 1 2 (charKey 114)) afterC = Outcome.next afterCR ∧
    afterCR.states ≠ afterC.states ∧ afterCR.cursorPos ≠ afterC.cursorPos ∧
    afterCR.typedChars ≠ afterC.typedChars ∧ afterCR.errors ≠ afterC.errors :=
  ⟨afterC_reachable, by decide, by decide, by decide, by decide, by decide, by decide⟩

/-- C9, amended: a key event of `r` / `R` re-runs `setup` in every state in which
the test is over, giving `cursorPos == 0` and `typed == false` on every slot; in
a reachable state in which the test is not over it is no restart (the passage
stays) but character input: being printable it is typed on the slot under the
cursor, so that `cursorPos` and `typedChars` go up by one. -/
theorem C9_restart_gating (isPrint : Nat → Bool) (timeLimit : Int) (pick : List Nat) (now : Int)
    (ev : Event) (s : State) (hkey : ev.type = EventType.EventKey)
    (hch : ev.ch = 114 ∨ ev.ch = 82) (hq : ev.key ≠ KeyEsc ∧ ev.key ≠ KeyCtrlC) :
    (finished timeLimit s →
      handleEvent isPrint timeLimit pick now ev s = Outcome.next (setup pick s) ∧
      (setup pick s).cursorPos = 0 ∧ ∀ c ∈ (setup pick s).states, c.typed = false) ∧
    (¬ finished timeLimit s → Reachable isPrint timeLimit s →
      ev.key ≠ KeyBackspace ∧ ev.key ≠ KeyBackspace2 → isPrint (typedChar ev) = true →
      ∃ s1, handleEvent isPrint timeLimit pick now ev s = Outcome.next s1 ∧
        s1.testText = s.testText ∧ s1.cursorPos = s.cursorPos + 1 ∧
        s1.typedChars = s.typedChars + 1 ∧
        ∃ c, slotAt s1.states s.cursorPos = some c ∧ c.typed = true) := by
  constructor
  · intro hfin
    refine ⟨?_, rfl, ?_⟩
    · unfold handleEvent
      rw [if_pos hkey, if_neg (by tauto), if_pos ⟨hch, hfin⟩]
    · intro c hc
      obtain ⟨d, hd, -, -, h3⟩ := mem_markFirst _ _ hc
      exact h3.trans (freshStates_blank pick d hd).2.1
  · intro hlive hR hb hp
    have hev : CharInputEv ev := by
      refine ⟨hkey, hq.1, hq.2, hb.1, hb.2, Or.inl ?_⟩
      rcases hch with h | h <;> rw [h] <;> decide
    have hI := Inv_of_Reachable isPrint timeLimit s hR
    have hc := core_startTimer now s
    have hI2 : Inv (startTimer now s) := Inv_of_core s _ hc hI
    have hlt := (not_finished_of_core timeLimit s hlive).1
    simp only [core, Prod.mk.injEq] at hc
    rw [← hc.1, ← hc.2.2.1] at hlt
    obtain ⟨n, c, hcp, hsl, he⟩ := typeChar_of_Inv (typedChar ev) _ hI2 hlt
    refine ⟨typedState (typedChar ev) n c (startTimer now s), ?_, ?_⟩
    · rw [handleEvent_char isPrint timeLimit pick now ev s hlive hev]
      unfold charInput
      rw [if_pos hp, he]
      rfl
    · refine ⟨hc.1, ?_, ?_, markTyped (typedChar ev) c, ?_, rfl⟩
      · show ((n + 1 : Nat) : Int) = s.cursorPos + 1
        rw [← hc.2.2.1, hcp]
        push_cast
        rfl
      · show (startTimer now s).typedChars + 1 = s.typedChars + 1
        rw [hc.2.2.2.1]
      · show slotAt (typedStates (typedChar ev) n (startTimer now s).states) s.cursorPos = _
        rw [← hc.2.2.1, hcp, slotAt_nat]
        simp only [typedStates, getElem?_modAt]
        have e2 : ¬ (n + 1 = n) := by omega
        simp [e2, hsl]

theorem C9_restart_gating_witness :
    (handleEvent isPrintLatin1 60 cat (8 * Second) (charKey 114) catDoneSeen
        = Outcome.next (setup cat catDoneSeen) ∧
      (setup cat catDoneSeen).cursorPos = 0 ∧
      ∀ c ∈ (setup cat catDoneSeen).states, c.typed = false) ∧
    (∃ s1, handleEvent isPrintLatin1 60 cat (2 * Second) (charKey 82) afterC = Outcome.next s1 ∧
      s1.testText = afterC.testText ∧ s1.cursorPos = afterC.cursorPos + 1 ∧
      s1.typedChars = afterC.typedChars + 1 ∧
      ∃ c, slotAt s1.states afterC.cursorPos = some c ∧ c.typed = true) :=
  ⟨(C9_restart_gating isPrintLatin1 60 cat (8 * Second) (charKey 114) catDoneSeen
      (by decide) (by decide) (by decide)).1 (by decide),
    (C9_restart_gating isPrintLatin1 60 cat (2 * Second) (charKey 82) afterC
      (by decide) (by decide) (by decide)).2 (by decide) afterC_reachable (by decide)
      (by decide)⟩

/-- C10: in every reachable state, for any passage (the empty one included) and
every key event, each access `states[cursorPos]` of the backspace branch (before
and after the decrement) and of the character-input branch (before the
increment and, under `cursorPos < len(testText)`, after it) is within the bounds
of `states`: handling an event never ends in the index fault, nor does any
number of turns of the loop, and the bodies of the two branches return a state
whenever the test is not over. -/
theorem C10_index_safety (isPrint : Nat → Bool) (timeLimit : Int) (pick : List Nat) (now : Int)
    (ev : Event) (s : State) (h : Reachable isPrint timeLimit s) :
    handleEvent isPrint timeLimit pick now ev s ≠ Outcome.fault ∧
    (∀ ts : List Turn, runLoop isPrint timeLimit ts s ≠ Outcome.fault) ∧
    (¬ finished timeLimit s → 0 < s.cursorPos → ∃ s1, eraseBack s = some s1) ∧
    (¬ finished timeLimit s → ∀ tc, ∃ s1, typeChar tc (startTimer now s) = some s1) := by
  have hI := Inv_of_Reachable isPrint timeLimit s h
  refine ⟨(handleEvent_Inv isPrint timeLimit pick now ev s hI).1,
    fun ts => runLoop_ne_fault isPrint timeLimit ts s hI, ?_, ?_⟩
  · intro hlive h0
    obtain ⟨m, c, -, -, he⟩ :=
      eraseBack_of_Inv s hI h0 (not_finished_of_core timeLimit s hlive).1
    exact ⟨_, he⟩
  · intro hlive tc
    have hc := core_startTimer now s
    have hI2 : Inv (startTimer now s) := Inv_of_core s _ hc hI
    have hlt := (not_finished_of_core timeLimit s hlive).1
    simp only [core, Prod.mk.injEq] at hc
    rw [← hc.1, ← hc.2.2.1] at hlt
    obtain ⟨n, c, -, -, he⟩ := typeChar_of_Inv tc _ hI2 hlt
    exact ⟨_, he⟩

theorem C10_index_safety_witness :
    handleEvent isPrintLatin1 60 cat (2 * Second) backspaceKey afterC ≠ Outcome.fault ∧
    (∀ ts : List Turn, runLoop isPrintLatin1 60 ts afterC ≠ Outcome.fault) ∧
    (∃ s1, eraseBack afterC = some s1) ∧
    (∀ tc, ∃ s1, typeChar tc (startTimer (2 * Second) afterC) = some s1) :=
  ⟨(C10_index_safety isPrintLatin1 60 cat (2 * Second) backspaceKey afterC afterC_reachable).1,
    (C10_index_safety isPrintLatin1 60 cat (2 * Second) backspaceKey afterC afterC_reachable).2.1,
    (C10_index_safety isPrintLatin1 60 cat (2 * Second) backspaceKey afterC
      afterC_reachable).2.2.1 (by decide) (by decide),
    (C10_index_safety isPrintLatin1 60 cat (2 * Second) backspaceKey afterC
      afterC_reachable).2.2.2 (by decide)⟩

end FastFingers
